import Mathlib

/-!
Verification development for the memchin practice engine.

This file gives a shallow embedding, in Lean, of the algorithmic core of the
memchin repository and proves properties of that embedding:

* `src/src/server/services/pinyin.ts` — the pinyin segmentation, tone-numeral
  conversion, normalization and matching functions;
* `src/src/server/services/srs.ts` — the bucketed spaced-repetition scheduler;
* `src/src/server/db.ts` — the word-selection queries (`queryReviewWords`,
  `queryNewWords`, `getWordsForReview`, `getWordsForPractice`) and
  `isAmbiguousTranslation`, modelled over an explicit in-memory database state;
* `src/src/server/routes/practice.ts` — the answer-verification route.

Modelling conventions:

* JavaScript strings are modelled by Lean `String` / `List Char`; the
  tone-marked pinyin vowels are single Unicode code points in both worlds.
* The regular expression `SYLLABLE_PATTERN` is modelled by an explicit
  ordered-choice (first-alternative-wins) matcher, which is the semantics of
  JavaScript regex alternation.  The case-insensitive flag is modelled by
  ASCII lowercasing (the inputs of interest are lowercase).
* SQL timestamps (`next_eligible`) are fixed-format strings compared
  lexicographically in the source, which coincides with chronological order;
  they are modelled as natural numbers.
* `ORDER BY x ASC` is modelled by `List.insertionSort`, `ORDER BY RANDOM()`
  by an arbitrary permutation parameter.
* `Math.random()` is modelled by a rational parameter `rand` with
  `0 ≤ rand < 1`.
-/

namespace Memchin

/-! ### Pinyin: character classes and the syllable pattern -/

/-- ASCII lowercasing; models the effect of the regex `i` flag on the ASCII
letters appearing in `SYLLABLE_PATTERN` and of `toLowerCase` on ASCII. -/
def asciiLower (c : Char) : Char :=
  if 'A' ≤ c && c ≤ 'Z' then Char.ofNat (c.toNat + 32) else c

/-- Lowercasing of the uppercase tone-marked vowels, as performed by
JavaScript `String.prototype.toLowerCase` on the characters relevant to
pinyin; other non-ASCII characters are left unchanged. -/
def jsLowerPairs : List (Char × Char) :=
  [('Ā', 'ā'), ('Á', 'á'), ('Ǎ', 'ǎ'), ('À', 'à'),
   ('Ē', 'ē'), ('É', 'é'), ('Ě', 'ě'), ('È', 'è'),
   ('Ī', 'ī'), ('Í', 'í'), ('Ǐ', 'ǐ'), ('Ì', 'ì'),
   ('Ō', 'ō'), ('Ó', 'ó'), ('Ǒ', 'ǒ'), ('Ò', 'ò'),
   ('Ū', 'ū'), ('Ú', 'ú'), ('Ǔ', 'ǔ'), ('Ù', 'ù'),
   ('Ǖ', 'ǖ'), ('Ǘ', 'ǘ'), ('Ǚ', 'ǚ'), ('Ǜ', 'ǜ'), ('Ü', 'ü')]

/-- Model of `toLowerCase` restricted to the character repertoire of the
application (ASCII plus tone-marked vowels). -/
def jsToLower (c : Char) : Char :=
  match jsLowerPairs.find? (fun p => p.1 == c) with
  | some p => p.2
  | none => asciiLower c

/-- The vowel character class `A = [aāáǎà]` of `pinyin.ts`. -/
def classA (c : Char) : Bool := ['a', 'ā', 'á', 'ǎ', 'à'].contains (asciiLower c)

/-- The vowel character class `E = [eēéěè]`. -/
def classE (c : Char) : Bool := ['e', 'ē', 'é', 'ě', 'è'].contains (asciiLower c)

/-- The vowel character class `I = [iīíǐì]`. -/
def classI (c : Char) : Bool := ['i', 'ī', 'í', 'ǐ', 'ì'].contains (asciiLower c)

/-- The vowel character class `O = [oōóǒò]`. -/
def classO (c : Char) : Bool := ['o', 'ō', 'ó', 'ǒ', 'ò'].contains (asciiLower c)

/-- The vowel character class `U = [uūúǔù]`. -/
def classU (c : Char) : Bool := ['u', 'ū', 'ú', 'ǔ', 'ù'].contains (asciiLower c)

/-- The vowel character class `V = [üǖǘǚǜv]` (ü may be written v). -/
def classV (c : Char) : Bool := ['ü', 'ǖ', 'ǘ', 'ǚ', 'ǜ', 'v'].contains (asciiLower c)

/-- One atom of a final: a vowel character class or a literal letter
(`n`, `g` or `r`). -/
inductive CSpec where
  | vA | vE | vI | vO | vU | vV | litN | litG | litR
deriving DecidableEq, Repr

/-- Whether a character matches one atom of a final. -/
def matchAtom : CSpec → Char → Bool
  | .vA, c => classA c
  | .vE, c => classE c
  | .vI, c => classI c
  | .vO, c => classO c
  | .vU, c => classU c
  | .vV, c => classV c
  | .litN, c => asciiLower c == 'n'
  | .litG, c => asciiLower c == 'g'
  | .litR, c => asciiLower c == 'r'

/-- The `FINALS` alternation of `pinyin.ts`, in source order.  JavaScript
regex alternation is ordered choice, so this order is semantically
significant. -/
def FINALS : List (List CSpec) :=
  [[.vI, .vA, .litN, .litG], [.vI, .vA, .vO], [.vI, .vA, .litN], [.vI, .vO, .litN, .litG],
   [.vU, .vA, .litN, .litG], [.vU, .vA, .vI], [.vU, .vA, .litN],
   [.vI, .vA], [.vI, .vE], [.vI, .vU], [.vI, .litN, .litG], [.vI, .litN],
   [.vU, .vA], [.vU, .vO], [.vU, .vE], [.vU, .vI], [.vU, .litN], [.vU, .litN, .litG],
   [.vV, .vE], [.vV, .vA, .litN], [.vV, .litN],
   [.vA, .litN, .litG], [.vA, .vI], [.vA, .vO], [.vA, .litN],
   [.vE, .litN, .litG], [.vE, .vI], [.vE, .litN], [.vE, .litR],
   [.vO, .litN, .litG], [.vO, .vU],
   [.vA], [.vE], [.vI], [.vO], [.vU], [.vV]]

/-- Whether a final pattern matches a prefix of the character list. -/
def matchSpecs : List CSpec → List Char → Bool
  | [], _ => true
  | _ :: _, [] => false
  | a :: ps, c :: cs => matchAtom a c && matchSpecs ps cs

/-- Length of the first final (in `FINALS` order) matching a prefix of the
input, if any. -/
def matchFinal (s : List Char) : Option Nat :=
  FINALS.findSome? (fun pat => if matchSpecs pat s then some pat.length else none)

/-- The single-letter initial consonants `[bpmfdtnlgkhjqxrzcsyw]`. -/
def isInitialChar (c : Char) : Bool :=
  ['b', 'p', 'm', 'f', 'd', 't', 'n', 'l', 'g', 'k', 'h', 'j', 'q', 'x', 'r',
   'z', 'c', 's', 'y', 'w'].contains (asciiLower c)

/-- Whether the input starts with one of the two-letter initials
`zh`, `ch`, `sh`. -/
def twoCharInitial : List Char → Bool
  | c1 :: c2 :: _ =>
      (asciiLower c2 == 'h') &&
        ((asciiLower c1 == 'z') || (asciiLower c1 == 'c') || (asciiLower c1 == 's'))
  | _ => false

/-- Candidate lengths for the optional initial `(?:zh|ch|sh|[b..w])?`, in the
order the regex engine tries them: a two-letter initial first, then a
one-letter initial, then the empty match (the group is optional). -/
def initialCands (s : List Char) : List Nat :=
  (if twoCharInitial s then [2] else []) ++
  (match s with
   | c :: _ => if isInitialChar c then [1] else []
   | [] => []) ++ [0]

/-- Length of the match of `SYLLABLE_PATTERN` (`^(INITIALS?(?:FINALS))`) at
the start of the input, with JavaScript backtracking semantics: initial
candidates are tried in order, and for each, the finals are tried in order;
the first overall success wins. -/
def matchSyllable (s : List Char) : Option Nat :=
  (initialCands s).findSome? (fun i => (matchFinal (s.drop i)).map (fun m => i + m))

/-! ### Pinyin: splitPinyin -/

/-- Whether a character is matched by the `['\s]` class of `splitPinyin`
(apostrophe, written here by code point, or whitespace). -/
def sepChar (c : Char) : Bool :=
  c == Char.ofNat 39 || c == ' ' || c == '\t' || c == '\n' || c == '\r'

/-- Collapsing of consecutive spaces to a single space; together with the
separator-to-space substitution this models `replace(/['\s]+/g, ' ')`. -/
def squashSpaces : List Char → List Char
  | [] => []
  | [c] => [c]
  | c1 :: c2 :: rest =>
      if c1 == ' ' && c2 == ' ' then squashSpaces (c2 :: rest)
      else c1 :: squashSpaces (c2 :: rest)

/-- Removal of leading and trailing spaces, modelling `trim()` applied to a
string whose only whitespace is single spaces. -/
def trimSpaceEnds (l : List Char) : List Char :=
  ((l.dropWhile (· == ' ')).reverse.dropWhile (· == ' ')).reverse

/-- The `replace(/['\s]+/g, ' ').trim()` normalization of `splitPinyin`. -/
def sepNormalize (l : List Char) : List Char :=
  trimSpaceEnds (squashSpaces (l.map (fun c => if sepChar c then ' ' else c)))

/-- The syllable-consuming loop of `splitPinyin`, with explicit fuel: while
characters remain, take the `SYLLABLE_PATTERN` match if there is one,
otherwise take a single character.  Fuel equal to the input length suffices
because every step consumes at least one character
(`splitLoopFuel_flatten`). -/
def splitLoopFuel : Nat → List Char → List (List Char)
  | 0, _ => []
  | _, [] => []
  | fuel + 1, c :: rest =>
      match matchSyllable (c :: rest) with
      | some n => (c :: rest).take n :: splitLoopFuel fuel ((c :: rest).drop n)
      | none => [c] :: splitLoopFuel fuel rest

/-- The syllable-consuming loop of `splitPinyin` at its natural fuel. -/
def splitLoop (s : List Char) : List (List Char) := splitLoopFuel s.length s

/-- Splitting on single spaces; models the reading of a space-joined string
as a list of tokens. -/
def splitOnSpace : List Char → List (List Char)
  | [] => [[]]
  | c :: rest =>
      if c == ' ' then [] :: splitOnSpace rest
      else
        match splitOnSpace rest with
        | [] => [[c]]
        | t :: ts => (c :: t) :: ts

/-- Model of `splitPinyin` from `pinyin.ts`: already-spaced input (after
separator normalization) is returned normalized; otherwise the greedy
regex loop splits the input and the pieces are joined with spaces. -/
def splitPinyin (p : String) : String :=
  let normalized := sepNormalize p.data
  if normalized.contains ' ' then String.mk normalized
  else String.intercalate " " ((splitLoop p.data).map String.mk)

/-- The sequence of syllables produced by `splitPinyin`: the space-separated
tokens of its result (for the already-spaced branch) respectively the pieces
produced by the regex loop (for the unspaced branch). -/
def pinyinSyllables (p : String) : List String :=
  let normalized := sepNormalize p.data
  if normalized.contains ' ' then (splitOnSpace normalized).map String.mk
  else (splitLoop p.data).map String.mk

/-! ### Pinyin: tone-numeral conversion, normalization, matching -/

/-- The `TONE_TO_NUMBER` table of `pinyin.ts`: tone-marked vowel to (base
letter, tone number). -/
def TONE_TO_NUMBER : List (Char × Char × Nat) :=
  [('ā', 'a', 1), ('á', 'a', 2), ('ǎ', 'a', 3), ('à', 'a', 4),
   ('ē', 'e', 1), ('é', 'e', 2), ('ě', 'e', 3), ('è', 'e', 4),
   ('ī', 'i', 1), ('í', 'i', 2), ('ǐ', 'i', 3), ('ì', 'i', 4),
   ('ō', 'o', 1), ('ó', 'o', 2), ('ǒ', 'o', 3), ('ò', 'o', 4),
   ('ū', 'u', 1), ('ú', 'u', 2), ('ǔ', 'u', 3), ('ù', 'u', 4),
   ('ǖ', 'v', 1), ('ǘ', 'v', 2), ('ǚ', 'v', 3), ('ǜ', 'v', 4)]

/-- Lookup in `TONE_TO_NUMBER`. -/
def toneLookup (c : Char) : Option (Char × Nat) :=
  (TONE_TO_NUMBER.find? (fun e => e.1 == c)).map (fun e => e.2)

/-- The digit character for a tone number. -/
def toneDigit : Nat → Char
  | 1 => '1'
  | 2 => '2'
  | 3 => '3'
  | 4 => '4'
  | _ => '5'

/-- The per-token body of `toNumberedPinyin`: replace each tone-marked vowel
by its base letter, remembering the last tone seen, and append the tone
digit at the end of the token unless the tone is neutral (5). -/
def toNumberedSyllable (syl : List Char) : List Char :=
  let step := syl.foldl
    (fun (acc : List Char × Nat) ch =>
      match toneLookup ch with
      | some bt => (acc.1 ++ [bt.1], bt.2)
      | none => (acc.1 ++ [ch], acc.2))
    (([] : List Char), 5)
  if step.2 == 5 then step.1 else step.1 ++ [toneDigit step.2]

/-- Whether a character is matched by the `\s` class on the inputs of
interest. -/
def isWs (c : Char) : Bool := c == ' ' || c == '\t' || c == '\n' || c == '\r'

/-- Model of JavaScript `split(/\s+/)`: tokens between maximal whitespace
runs, with an empty leading (resp. trailing) token when the input starts
(resp. ends) with whitespace, and `[""]` for the empty input. -/
def splitWs : List Char → List (List Char)
  | [] => [[]]
  | c :: rest =>
      if isWs c then
        match rest with
        | r1 :: _ => if isWs r1 then splitWs rest else [] :: splitWs rest
        | [] => [] :: splitWs rest
      else
        match splitWs rest with
        | [] => [[c]]
        | t :: ts => (c :: t) :: ts

/-- Removal of leading and trailing whitespace, modelling `trim()`. -/
def trimWs (l : List Char) : List Char :=
  ((l.dropWhile isWs).reverse.dropWhile isWs).reverse

/-- Model of `toNumberedPinyin` from `pinyin.ts`: lowercase, split on
whitespace runs, convert each token, and join with the empty string. -/
def toNumberedPinyin (p : String) : String :=
  String.mk (((splitWs (p.data.map jsToLower)).map toNumberedSyllable).flatten)

/-- Model of `normalizePinyin` from `pinyin.ts`:
`toNumberedPinyin(input.toLowerCase().trim())`. -/
def normalizePinyin (p : String) : String :=
  toNumberedPinyin (String.mk (trimWs (p.data.map jsToLower)))

/-- Model of `pinyinMatches` from `pinyin.ts`. -/
def pinyinMatches (input expected : String) : Bool :=
  normalizePinyin input == normalizePinyin expected

/-- Model of `englishMatches` from `pinyin.ts`: the answer equals some
translation after lowercasing and trimming both. -/
def englishMatches (input : String) (translations : List String) : Bool :=
  translations.any
    (fun t => trimWs (t.data.map jsToLower) == trimWs (input.data.map jsToLower))

/-- Model of `hanziMatches` from `pinyin.ts`: equality after `trim()` on
both sides. -/
def hanziMatches (input expected : String) : Bool :=
  trimWs input.data == trimWs expected.data

/-! ### Scheduler (srs.ts) -/

/-- The `BUCKET_DELAYS_MINUTES` table of `srs.ts`. -/
def BUCKET_DELAYS_MINUTES : List ℚ :=
  [0, 1, 5, 30, 4 * 60, 24 * 60, 3 * 24 * 60, 7 * 24 * 60, 30 * 24 * 60]

/-- The constant `MAX_BUCKET = BUCKET_DELAYS_MINUTES.length - 1` from
`srs.ts`. -/
def MAX_BUCKET : ℕ := BUCKET_DELAYS_MINUTES.length - 1

/-- The delay, in minutes, used by `calculateNextEligible`: the table entry
at the clamped index `min bucket MAX_BUCKET`. -/
def delayMinutes (bucket : ℕ) : ℚ :=
  BUCKET_DELAYS_MINUTES.getD (min bucket MAX_BUCKET) 0

/-- The instant computed by `calculateNextEligible`, in milliseconds:
`Date.now() + delayMinutes * (0.75 + rand * 0.5) * 60 * 1000`, where `rand`
models the `Math.random()` draw. -/
def nextEligibleExactMs (nowMs : ℚ) (bucket : ℕ) (rand : ℚ) : ℚ :=
  nowMs + delayMinutes bucket * (3/4 + rand * (1/2)) * 60 * 1000

/-- The instant actually stored by `calculateNextEligible`: the string
`toISOString().replace('T', ' ').replace(/\.\d+Z$/, '')` drops the
fractional-second part, which truncates the computed instant to whole
seconds. -/
def storedNextEligibleMs (nowMs : ℚ) (bucket : ℕ) (rand : ℚ) : ℤ :=
  1000 * ⌊nextEligibleExactMs nowMs bucket rand / 1000⌋

/-- The bucket-transition function inside `updateProgress`:
`correct -> min(bucket+1, MAX_BUCKET)`, `incorrect -> 0`. -/
def newBucketAfter (currentBucket : ℕ) (correct : Bool) : ℕ :=
  if correct then min (currentBucket + 1) MAX_BUCKET else 0

/-- The bucket written by `updateProgress`: the previous record's bucket (or
0 when there is no record for the (hanzi, mode) pair) pushed through the
transition function. -/
def updateProgressBucket (prevBucket : Option ℕ) (correct : Bool) : ℕ :=
  newBucketAfter (prevBucket.getD 0) correct

/-! ### Database model (db.ts) -/

/-- The four practice modes of `shared/types.ts`. -/
inductive PracticeMode where
  | hanzi2pinyin | hanzi2english | english2hanzi | english2pinyin
deriving DecidableEq, Repr

/-- A row of the `words` table, with the columns the selection queries and
the answer route read (`rank` and `hanzi_rank` may be NULL). -/
structure DBWord where
  hanzi : String
  pinyin : String
  english : List String
  rank : Option ℕ
  hanziRank : Option ℕ
  translatable : Bool
  categories : List String
deriving DecidableEq, Repr

/-- A row of the `progress` table.  `next_eligible` is a fixed-format
timestamp string compared lexicographically in SQL, which agrees with
chronological order; it is modelled as a natural number. -/
structure DBProgress where
  hanzi : String
  mode : PracticeMode
  bucket : ℕ
  nextEligible : ℕ
  characterModeOnly : Bool
deriving DecidableEq, Repr

/-- The database state read by the selection queries. -/
structure DBState where
  words : List DBWord
  progress : List DBProgress
deriving DecidableEq, Repr

/-- Whether the mode requires `w.translatable = 1`
(`hanzi2english`, `english2hanzi`, `english2pinyin`). -/
def isTranslationMode : PracticeMode → Bool
  | .hanzi2english => true
  | .english2hanzi => true
  | .english2pinyin => true
  | .hanzi2pinyin => false

/-- The rank column used for ordering new words: `w.hanzi_rank` in character
mode, `w.rank` otherwise. -/
def rankCol (characterMode : Bool) (w : DBWord) : Option ℕ :=
  if characterMode then w.hanziRank else w.rank

/-- Whether `needle` starts `haystack` (character-wise). -/
def seqStarts : List Char → List Char → Bool
  | [], _ => true
  | _ :: _, [] => false
  | a :: as, b :: bs => a == b && seqStarts as bs

/-- Whether `needle` occurs contiguously in `haystack`; models
`INSTR(haystack, needle) > 0`. -/
def seqSubOf (needle : List Char) : List Char → Bool
  | [] => seqStarts needle []
  | c :: rest => seqStarts needle (c :: rest) || seqSubOf needle rest

/-- The word-level filter built by `getWordFilters`: the translatable flag
for translation modes, the category membership test, the non-NULL rank
requirement, and in character mode the requirement that the character occur
in some word that has a progress record. -/
def wordFilter (st : DBState) (mode : PracticeMode) (categories : List String)
    (characterMode : Bool) (w : DBWord) : Bool :=
  (!isTranslationMode mode || w.translatable)
    && (categories.isEmpty || w.categories.any (fun v => categories.contains v))
    && (rankCol characterMode w).isSome
    && (!characterMode
        || st.words.any (fun w2 =>
             st.progress.any (fun p2 => p2.hanzi == w2.hanzi)
               && seqSubOf w.hanzi.data w2.hanzi.data))

/-- The progress-level filter built by `getWordFilters`: outside character
mode, records marked `character_mode_only` are excluded. -/
def progressFilter (characterMode : Bool) (p : DBProgress) : Bool :=
  characterMode || !p.characterModeOnly

/-- The `newWordCondition` of `getWordFilters` evaluated through the LEFT
JOIN: a word is "new" when it has no progress record for the mode, or (in
word mode) when its only record is marked `character_mode_only`. -/
def isNewFor (st : DBState) (mode : PracticeMode) (characterMode : Bool)
    (w : DBWord) : Bool :=
  match st.progress.find? (fun p => p.hanzi == w.hanzi && p.mode == mode) with
  | none => true
  | some p => !characterMode && p.characterModeOnly

/-- The row set of `FROM words w JOIN progress p ON w.hanzi = p.hanzi WHERE
p.mode = ?`. -/
def joinRows (st : DBState) (mode : PracticeMode) : List (DBWord × DBProgress) :=
  st.words.flatMap (fun w =>
    (st.progress.filter (fun p => p.hanzi == w.hanzi && p.mode == mode)).map
      (fun p => (w, p)))

/-- The filtered row set of `queryReviewWords` (before ordering and LIMIT):
the due filter when `dueOnly`, the word filter and the progress filter. -/
def reviewRows (st : DBState) (mode : PracticeMode) (categories : List String)
    (characterMode : Bool) (dueOnly : Bool) (now : ℕ) :
    List (DBWord × DBProgress) :=
  (joinRows st mode).filter (fun wp =>
    (!dueOnly || decide (wp.2.nextEligible ≤ now))
      && wordFilter st mode categories characterMode wp.1
      && progressFilter characterMode wp.2)

/-- The ordering `ORDER BY p.next_eligible ASC` on joined rows. -/
def rowLE (a b : DBWord × DBProgress) : Prop :=
  a.2.nextEligible ≤ b.2.nextEligible

instance : DecidableRel rowLE := fun a b => Nat.decLe _ _

instance : IsTotal (DBWord × DBProgress) rowLE :=
  ⟨fun a b => Nat.le_total a.2.nextEligible b.2.nextEligible⟩

instance : IsTrans (DBWord × DBProgress) rowLE :=
  ⟨fun _ _ _ => Nat.le_trans⟩

/-- Model of `queryReviewWords` from `db.ts`: join words with their progress
records for the mode, apply the filters, order by `next_eligible` (or by
`RANDOM()`, modelled by the permutation parameter `shuffle`), and take
`count` rows. -/
def queryReviewWords (st : DBState) (mode : PracticeMode)
    (categories : List String) (characterMode : Bool) (count : ℕ)
    (dueOnly : Bool) (random : Bool) (now : ℕ)
    (shuffle : List (DBWord × DBProgress) → List (DBWord × DBProgress)) :
    List DBWord :=
  let rows := reviewRows st mode categories characterMode dueOnly now
  let ordered := if random then shuffle rows else List.insertionSort rowLE rows
  (ordered.map Prod.fst).take count

/-- The ordering `ORDER BY w.rank ASC` (resp. `w.hanzi_rank`) on new words;
the queries only order rows whose rank column is non-NULL. -/
def newLE (characterMode : Bool) (a b : DBWord) : Prop :=
  (rankCol characterMode a).getD 0 ≤ (rankCol characterMode b).getD 0

instance (characterMode : Bool) : DecidableRel (newLE characterMode) :=
  fun a b => Nat.decLe _ _

instance (characterMode : Bool) : IsTotal DBWord (newLE characterMode) :=
  ⟨fun a b => Nat.le_total _ _⟩

instance (characterMode : Bool) : IsTrans DBWord (newLE characterMode) :=
  ⟨fun _ _ _ => Nat.le_trans⟩

/-- Model of `queryNewWords` from `db.ts`: words satisfying the
new-word condition and the word filter, ordered by rank, first `count`. -/
def queryNewWords (st : DBState) (mode : PracticeMode)
    (categories : List String) (characterMode : Bool) (count : ℕ) :
    List DBWord :=
  ((st.words.filter (fun w =>
      isNewFor st mode characterMode w
        && wordFilter st mode categories characterMode w)).insertionSort
    (newLE characterMode)).take count

/-- Model of `getWordsForReview` from `db.ts`: `queryReviewWords` with
`dueOnly = false` and the given `random` flag.  This is the function behind
the `review` (random = false) and `random` (random = true) selection
strategies of the `/practice/start` route. -/
def getWordsForReview (st : DBState) (mode : PracticeMode) (count : ℕ)
    (categories : List String) (characterMode : Bool) (random : Bool)
    (now : ℕ)
    (shuffle : List (DBWord × DBProgress) → List (DBWord × DBProgress)) :
    List DBWord :=
  queryReviewWords st mode categories characterMode count false random now shuffle

/-- Model of `getWordsForPractice` from `db.ts` (the default, mixed
selection): due rows first; if fewer than `count` were found, fill the
remainder with new words. -/
def getWordsForPractice (st : DBState) (mode : PracticeMode)
    (categories : List String) (characterMode : Bool) (count : ℕ)
    (now : ℕ) : List DBWord :=
  let result := queryReviewWords st mode categories characterMode count true false now id
  if result.length < count then
    result ++ queryNewWords st mode categories characterMode (count - result.length)
  else result

/-! ### Claim-side selection notions (spec wording) -/

/-- The words the claim calls "due": an eligible word whose progress record
for the mode has `nextEligible ≤ now` (stated for the default filters:
no categories, word mode). -/
def dueWords (st : DBState) (mode : PracticeMode) (now : ℕ) : List DBWord :=
  st.words.filter (fun w =>
    wordFilter st mode [] false w
      && st.progress.any (fun p =>
           p.hanzi == w.hanzi && p.mode == mode && decide (p.nextEligible ≤ now)))

/-- The words the claim calls "new": an eligible word with no progress
record for the mode (stated for the default filters). -/
def newEligibleWords (st : DBState) (mode : PracticeMode) : List DBWord :=
  st.words.filter (fun w =>
    wordFilter st mode [] false w
      && !(st.progress.any (fun p => p.hanzi == w.hanzi && p.mode == mode)))

/-- The `nextEligible` key of a word's progress record for a mode (0 when
there is none); used to state "ordered by nextEligible ascending" on the
word list returned by the queries. -/
def neKey (st : DBState) (mode : PracticeMode) (w : DBWord) : ℕ :=
  ((st.progress.find? (fun p => p.hanzi == w.hanzi && p.mode == mode)).map
    (fun p => p.nextEligible)).getD 0

/-! ### Ambiguous translations and the answer route (db.ts, practice.ts) -/

/-- Model of `normalizedTranslations` from `db.ts`:
`englishTranslations.join('|').toLowerCase().trim()`. -/
def normalizedTranslations (ts : List String) : String :=
  String.mk (trimWs ((String.intercalate "|" ts).data.map jsToLower))

/-- Insertion into a JavaScript `Set`, modelled on lists: adding an element
already present is a no-op. -/
def addIfAbsent (s : List String) (t : String) : List String :=
  if s.contains t then s else t :: s

/-- One step of `loadAmbiguousTranslations`: a normalized translation string
seen before goes into the ambiguous set, otherwise it is recorded as seen. -/
def ambStep (acc : List String × List String) (t : String) :
    List String × List String :=
  if acc.1.contains t then (acc.1, addIfAbsent acc.2 t)
  else (addIfAbsent acc.1 t, acc.2)

/-- The ambiguous-translation set built by `loadAmbiguousTranslations` over
the word catalog.  The source iterates the hanzi-keyed `getAllWords()` map;
with the table's unique-hanzi constraint that is the word list up to order,
and membership in the resulting set is order-independent
(`isAmbiguousTranslation_iff`). -/
def ambiguousTranslationsSet (st : DBState) : List String :=
  (st.words.foldl (fun acc w => ambStep acc (normalizedTranslations w.english))
    ([], [])).2

/-- Model of `isAmbiguousTranslation` from `db.ts`. -/
def isAmbiguousTranslation (st : DBState) (ts : List String) : Bool :=
  (ambiguousTranslationsSet st).contains (normalizedTranslations ts)

/-- The correctness/near-miss flags of the `/practice/answer` route. -/
structure AnswerFlags where
  correct : Bool
  synonym : Bool
deriving DecidableEq, Repr

/-- Model of the `english2hanzi` case of the `/practice/answer` route:
exact (trimmed) hanzi match decides `correct`; a non-exact answer for an
ambiguous translation sets the `synonym` flag. -/
def english2hanziFlags (st : DBState) (w : DBWord) (answer : String) :
    AnswerFlags :=
  let isExactMatch := hanziMatches answer w.hanzi
  let isSynonym := !isExactMatch && isAmbiguousTranslation st w.english
  ⟨isExactMatch, isSynonym⟩

/-- Model of the `/practice/answer` route for all four modes.  The functions
`isPinyinSynonymO` and `lastNeutralO` stand for `isPinyinSynonym` (a lookup
in the synonym table) and `lastNeutralToneMismatch`, whose defining code is
not part of the sources; the theorems below hold for every choice of these
functions. -/
def answerFlags (st : DBState)
    (isPinyinSynonymO lastNeutralO : String → String → Bool)
    (mode : PracticeMode) (w : DBWord) (answer : String) : AnswerFlags :=
  match mode with
  | .hanzi2pinyin =>
      let correct := pinyinMatches answer w.pinyin
      let na := normalizePinyin answer
      let ne := normalizePinyin w.pinyin
      ⟨correct,
        !correct
          && (isPinyinSynonymO w.hanzi na
              || (decide (1 < w.hanzi.length) && lastNeutralO na ne))⟩
  | .hanzi2english => ⟨englishMatches answer w.english, false⟩
  | .english2hanzi => english2hanziFlags st w answer
  | .english2pinyin =>
      let na := normalizePinyin answer
      let ne := normalizePinyin w.pinyin
      ⟨na == ne,
        !(na == ne)
          && (isPinyinSynonymO w.hanzi na
              || (decide (1 < w.hanzi.length) && lastNeutralO na ne)
              || isAmbiguousTranslation st w.english)⟩

/-! ### Concrete states used by counterexamples and witnesses -/

/-- A one-word catalog entry used by concrete counterexamples. -/
def wLove : DBWord :=
  { hanzi := "爱", pinyin := "ài", english := ["love"], rank := some 1,
    hanziRank := some 1, translatable := true, categories := [] }

/-- A word due for review at time 5 in `hanzi2pinyin` mode. -/
def stReview : DBState :=
  { words := [wLove],
    progress := [{ hanzi := "爱", mode := .hanzi2pinyin, bucket := 3,
                   nextEligible := 5, characterModeOnly := false }] }

/-- Second and third catalog words (never practiced) for the mixed-selection
witness. -/
def wOne : DBWord :=
  { hanzi := "一", pinyin := "yī", english := ["one"], rank := some 2,
    hanziRank := some 2, translatable := true, categories := [] }

/-- Third catalog word for the mixed-selection witness. -/
def wTwo : DBWord :=
  { hanzi := "二", pinyin := "èr", english := ["two"], rank := some 3,
    hanziRank := some 3, translatable := true, categories := [] }

/-- A state with one due word and two new words in `hanzi2pinyin` mode. -/
def stMixed : DBState :=
  { words := [wLove, wOne, wTwo],
    progress := [{ hanzi := "爱", mode := .hanzi2pinyin, bucket := 2,
                   nextEligible := 5, characterModeOnly := false }] }

/-! ### Scheduler lemmas and theorems (claims C1, C10) -/

/-- Every entry of the delay table is a nonnegative number of minutes. -/
theorem delayMinutes_nonneg (b : ℕ) : 0 ≤ delayMinutes b := by
  unfold delayMinutes
  have h : min b MAX_BUCKET ≤ 8 := Nat.min_le_right b 8
  revert h
  generalize min b MAX_BUCKET = k
  intro h
  interval_cases k <;> norm_num [BUCKET_DELAYS_MINUTES]

/-- C1 (counterexample).  The claim asserts that the stored `nextEligible`
instant always lies within `[now + 0.75*delay, now + 1.25*delay]`.  At
`now = 999 ms`, after an incorrect answer (new bucket 0, delay 0), the
stored timestamp is the computed instant truncated to whole seconds, i.e.
0 ms, which is below the claimed lower bound `now + 0.75*0 = 999 ms`. -/
theorem srs_stored_jitter_counterexample :
    storedNextEligibleMs 999 (updateProgressBucket (some 5) false) 0 = 0
    ∧ ¬(999 + 3/4 * (delayMinutes (updateProgressBucket (some 5) false) * 60000)
          ≤ (storedNextEligibleMs 999 (updateProgressBucket (some 5) false) 0 : ℚ)) := by
  have hb : updateProgressBucket (some 5) false = 0 := rfl
  have hd : delayMinutes 0 = 0 := by
    norm_num [delayMinutes, BUCKET_DELAYS_MINUTES, MAX_BUCKET]
  have hx : nextEligibleExactMs 999 0 0 = 999 := by
    norm_num [nextEligibleExactMs, hd]
  have hs : storedNextEligibleMs 999 0 0 = 0 := by
    unfold storedNextEligibleMs
    rw [hx]
    norm_num [Int.floor_eq_iff]
  rw [hb]
  refine ⟨hs, ?_⟩
  rw [hd, hs]
  norm_num

/-- C1 (amended).  For every graded attempt, `updateProgress` maps the
current bucket `b` (0 when no record exists) to `min (b+1) MAX_BUCKET` on a
correct answer and to 0 on an incorrect one; the delay table is the fixed
strictly increasing sequence 0, 1, 5, 30, 240, 1440, 4320, 10080, 43200
minutes with `MAX_BUCKET = 8`; the computed next-eligible instant lies
within `[now + 0.75*delay(newBucket), now + 1.25*delay(newBucket)]`; and the
stored timestamp, which truncates that instant to whole seconds, lies within
`[now + 0.75*delay(newBucket) - 1000 ms, now + 1.25*delay(newBucket)]`. -/
theorem srs_transition_and_jitter (prevBucket : Option ℕ) (correct : Bool)
    (nowMs rand : ℚ) (h0 : 0 ≤ rand) (h1 : rand < 1) :
    updateProgressBucket prevBucket correct
        = (if correct then min (prevBucket.getD 0 + 1) 8 else 0)
    ∧ MAX_BUCKET = 8
    ∧ BUCKET_DELAYS_MINUTES = [0, 1, 5, 30, 240, 1440, 4320, 10080, 43200]
    ∧ List.Chain' (· < ·) BUCKET_DELAYS_MINUTES
    ∧ nowMs + 3/4 * (delayMinutes (updateProgressBucket prevBucket correct) * 60000)
        ≤ nextEligibleExactMs nowMs (updateProgressBucket prevBucket correct) rand
    ∧ nextEligibleExactMs nowMs (updateProgressBucket prevBucket correct) rand
        ≤ nowMs + 5/4 * (delayMinutes (updateProgressBucket prevBucket correct) * 60000)
    ∧ nowMs + 3/4 * (delayMinutes (updateProgressBucket prevBucket correct) * 60000) - 1000
        ≤ (storedNextEligibleMs nowMs (updateProgressBucket prevBucket correct) rand : ℚ)
    ∧ (storedNextEligibleMs nowMs (updateProgressBucket prevBucket correct) rand : ℚ)
        ≤ nowMs + 5/4 * (delayMinutes (updateProgressBucket prevBucket correct) * 60000) := by
  have key : ∀ nb : ℕ,
      nowMs + 3/4 * (delayMinutes nb * 60000) ≤ nextEligibleExactMs nowMs nb rand
      ∧ nextEligibleExactMs nowMs nb rand ≤ nowMs + 5/4 * (delayMinutes nb * 60000)
      ∧ nowMs + 3/4 * (delayMinutes nb * 60000) - 1000
          ≤ (storedNextEligibleMs nowMs nb rand : ℚ)
      ∧ (storedNextEligibleMs nowMs nb rand : ℚ)
          ≤ nowMs + 5/4 * (delayMinutes nb * 60000) := by
    intro nb
    have hd : 0 ≤ delayMinutes nb := delayMinutes_nonneg nb
    have hlow : nowMs + 3/4 * (delayMinutes nb * 60000)
        ≤ nextEligibleExactMs nowMs nb rand := by
      unfold nextEligibleExactMs
      nlinarith [mul_nonneg hd h0]
    have hhigh : nextEligibleExactMs nowMs nb rand
        ≤ nowMs + 5/4 * (delayMinutes nb * 60000) := by
      unfold nextEligibleExactMs
      nlinarith [mul_nonneg hd (by linarith : (0:ℚ) ≤ 1 - rand)]
    have hfl : nextEligibleExactMs nowMs nb rand - 1000
        < (storedNextEligibleMs nowMs nb rand : ℚ) := by
      unfold storedNextEligibleMs
      push_cast
      have h := Int.sub_one_lt_floor (nextEligibleExactMs nowMs nb rand / 1000)
      linarith
    have hfu : (storedNextEligibleMs nowMs nb rand : ℚ)
        ≤ nextEligibleExactMs nowMs nb rand := by
      unfold storedNextEligibleMs
      push_cast
      have h := Int.floor_le (nextEligibleExactMs nowMs nb rand / 1000)
      linarith
    exact ⟨hlow, hhigh, by linarith, by linarith⟩
  obtain ⟨k1, k2, k3, k4⟩ := key (updateProgressBucket prevBucket correct)
  exact ⟨rfl, rfl, by norm_num [BUCKET_DELAYS_MINUTES],
    by norm_num [BUCKET_DELAYS_MINUTES, List.chain'_cons], k1, k2, k3, k4⟩

/-- C1 (witness).  The amended theorem applied at bucket 0, a correct
answer, `now = 0` and random draw 1/2. -/
theorem srs_transition_and_jitter_witness :
    (0 ≤ (1/2 : ℚ)) ∧ ((1/2 : ℚ) < 1)
    ∧ (updateProgressBucket (some 0) true
        = (if true then min ((some 0).getD 0 + 1) 8 else 0)
    ∧ MAX_BUCKET = 8
    ∧ BUCKET_DELAYS_MINUTES = [0, 1, 5, 30, 240, 1440, 4320, 10080, 43200]
    ∧ List.Chain' (· < ·) BUCKET_DELAYS_MINUTES
    ∧ (0:ℚ) + 3/4 * (delayMinutes (updateProgressBucket (some 0) true) * 60000)
        ≤ nextEligibleExactMs 0 (updateProgressBucket (some 0) true) (1/2)
    ∧ nextEligibleExactMs 0 (updateProgressBucket (some 0) true) (1/2)
        ≤ (0:ℚ) + 5/4 * (delayMinutes (updateProgressBucket (some 0) true) * 60000)
    ∧ (0:ℚ) + 3/4 * (delayMinutes (updateProgressBucket (some 0) true) * 60000) - 1000
        ≤ (storedNextEligibleMs 0 (updateProgressBucket (some 0) true) (1/2) : ℚ)
    ∧ (storedNextEligibleMs 0 (updateProgressBucket (some 0) true) (1/2) : ℚ)
        ≤ (0:ℚ) + 5/4 * (delayMinutes (updateProgressBucket (some 0) true) * 60000)) :=
  ⟨by norm_num, by norm_num,
    srs_transition_and_jitter (some 0) true 0 (1/2) (by norm_num) (by norm_num)⟩

/-- C10.  Every bucket written through `updateProgress` equals the
transition function's value `min (b+1) MAX_BUCKET` (correct) or 0
(incorrect), hence lies in `[0, MAX_BUCKET]`; and the clamped index
`min bucket MAX_BUCKET` used by `calculateNextEligible` is always a valid
index into the delay table. -/
theorem updateProgress_bucket_invariant (prevBucket : Option ℕ) (correct : Bool) :
    updateProgressBucket prevBucket correct
        = (if correct then min (prevBucket.getD 0 + 1) MAX_BUCKET else 0)
    ∧ updateProgressBucket prevBucket correct ≤ MAX_BUCKET
    ∧ ∀ b : ℕ, min b MAX_BUCKET < BUCKET_DELAYS_MINUTES.length := by
  refine ⟨rfl, ?_, ?_⟩
  · unfold updateProgressBucket newBucketAfter
    split
    · exact Nat.min_le_right _ _
    · exact Nat.zero_le _
  · intro b
    have h : min b MAX_BUCKET ≤ 8 := Nat.min_le_right b 8
    have hlen : BUCKET_DELAYS_MINUTES.length = 9 := rfl
    omega

/-! ### Segmentation lemmas and theorems (claims C4, C5, C6, C7) -/

/-- Every final pattern is non-empty, so a final match consumes at least one
character. -/
theorem matchFinal_pos {s : List Char} {m : ℕ} (h : matchFinal s = some m) :
    1 ≤ m := by
  obtain ⟨pat, hmem, hpat⟩ := List.exists_of_findSome?_eq_some h
  have hlen : ∀ p ∈ FINALS, 1 ≤ p.length := by decide
  split at hpat
  · cases hpat
    exact hlen pat hmem
  · cases hpat

/-- A `SYLLABLE_PATTERN` match consumes at least one character. -/
theorem matchSyllable_pos {s : List Char} {n : ℕ} (h : matchSyllable s = some n) :
    1 ≤ n := by
  obtain ⟨i, _, hf⟩ := List.exists_of_findSome?_eq_some h
  cases hm : matchFinal (s.drop i) with
  | none => rw [hm] at hf; cases hf
  | some m =>
      rw [hm] at hf
      have := matchFinal_pos hm
      simp at hf
      omega

/-- The loop of `splitPinyin` consumes the whole input: with fuel at least
the input length, the produced pieces concatenate back to the input.  This
is the termination-and-coverage invariant of the loop (each step consumes at
least one character, via the match or the single-character fallback). -/
theorem splitLoopFuel_flatten :
    ∀ (fuel : ℕ) (s : List Char), s.length ≤ fuel →
      (splitLoopFuel fuel s).flatten = s := by
  intro fuel
  induction fuel with
  | zero =>
      intro s h
      have hs : s = [] := List.eq_nil_of_length_eq_zero (Nat.le_zero.mp h)
      subst hs
      rfl
  | succ n ih =>
      intro s h
      match s with
      | [] => rfl
      | c :: rest =>
        cases hm : matchSyllable (c :: rest) with
        | some k =>
            have hk := matchSyllable_pos hm
            have hdrop : ((c :: rest).drop k).length ≤ n := by
              rw [List.length_drop]
              simp only [List.length_cons] at h ⊢
              omega
            simp [splitLoopFuel, hm, ih _ hdrop]
        | none =>
            have hrest : rest.length ≤ n := by
              simp only [List.length_cons] at h
              omega
            simp [splitLoopFuel, hm, ih rest hrest]

/-- The space-splitting function never returns the empty list. -/
theorem splitOnSpace_ne_nil (l : List Char) : splitOnSpace l ≠ [] := by
  match l with
  | [] => simp [splitOnSpace]
  | c :: rest =>
      cases hc : (c == ' ') with
      | true => simp [splitOnSpace, hc]
      | false =>
          simp only [splitOnSpace, hc]
          cases h : splitOnSpace rest <;> simp

/-- The loop of `splitPinyin` returns at least one piece on non-empty
input. -/
theorem splitLoop_ne_nil (c : Char) (rest : List Char) :
    splitLoop (c :: rest) ≠ [] := by
  unfold splitLoop
  simp only [List.length_cons]
  cases hm : matchSyllable (c :: rest) <;> simp [splitLoopFuel, hm]

/-- Folding string concatenation over `String.mk` pieces concatenates the
underlying character lists. -/
theorem foldl_append_map_mk (l : List (List Char)) (acc : List Char) :
    List.foldl (· ++ ·) (String.mk acc) (l.map String.mk)
      = String.mk (acc ++ l.flatten) := by
  induction l generalizing acc with
  | nil => simp
  | cons a t ih =>
      simp only [List.map_cons, List.foldl_cons, List.flatten_cons]
      have hmk : String.mk acc ++ String.mk a = String.mk (acc ++ a) := rfl
      rw [hmk, ih]
      simp

/-- Joining the `String.mk` pieces is `String.mk` of the concatenation. -/
theorem join_map_mk (l : List (List Char)) :
    String.join (l.map String.mk) = String.mk l.flatten := by
  have h := foldl_append_map_mk l []
  simpa [String.join] using h

/-- Substituting separators by spaces is the identity on separator-free
input. -/
theorem map_subst_of_no_sep {l : List Char} (h : ∀ c ∈ l, sepChar c = false) :
    l.map (fun c => if sepChar c then ' ' else c) = l := by
  induction l with
  | nil => rfl
  | cons c t ih =>
      have hc := h c (List.mem_cons_self c t)
      simp [hc, ih (fun x hx => h x (List.mem_cons_of_mem c hx))]

/-- Squashing double spaces is the identity on space-free input. -/
theorem squashSpaces_of_no_space {l : List Char}
    (h : ∀ c ∈ l, (c == ' ') = false) : squashSpaces l = l := by
  induction l with
  | nil => rfl
  | cons c t ih =>
      cases t with
      | nil => rfl
      | cons d u =>
          have hc := h c (List.mem_cons_self c (d :: u))
          have ihs : squashSpaces (d :: u) = d :: u :=
            ih (fun x hx => h x (List.mem_cons_of_mem c hx))
          simp [squashSpaces, hc, ihs]

/-- Dropping a leading run is the identity when no element satisfies the
predicate. -/
theorem dropWhile_of_none {p : Char → Bool} {l : List Char}
    (h : ∀ c ∈ l, p c = false) : l.dropWhile p = l := by
  cases l with
  | nil => rfl
  | cons c t => simp [List.dropWhile_cons, h c (List.mem_cons_self c t)]

/-- Trimming is the identity on space-free input. -/
theorem trimSpaceEnds_of_no_space {l : List Char}
    (h : ∀ c ∈ l, (c == ' ') = false) : trimSpaceEnds l = l := by
  unfold trimSpaceEnds
  rw [dropWhile_of_none h,
    dropWhile_of_none (fun c hc => h c (List.mem_reverse.mp hc))]
  exact List.reverse_reverse l

/-- The characters of a separator-free list are not spaces. -/
theorem no_space_of_no_sep {l : List Char} (h : ∀ c ∈ l, sepChar c = false) :
    ∀ c ∈ l, (c == ' ') = false := by
  intro c hc
  cases hb : (c == ' ') with
  | false => rfl
  | true =>
      have hceq : c = ' ' := by simpa using hb
      subst hceq
      have := h _ hc
      simp [sepChar] at this

/-- The `replace(/['\s]+/g, ' ').trim()` normalization is the identity on
separator-free input. -/
theorem sepNormalize_of_no_sep {l : List Char} (h : ∀ c ∈ l, sepChar c = false) :
    sepNormalize l = l := by
  unfold sepNormalize
  rw [map_subst_of_no_sep h, squashSpaces_of_no_space (no_space_of_no_sep h),
    trimSpaceEnds_of_no_space (no_space_of_no_sep h)]

/-- A separator-free list does not contain a space. -/
theorem contains_space_of_no_sep {l : List Char}
    (h : ∀ c ∈ l, sepChar c = false) : l.contains ' ' = false := by
  cases hc : l.contains ' ' with
  | false => rfl
  | true =>
      have hmem : ' ' ∈ l := by simpa using hc
      have := no_space_of_no_sep h ' ' hmem
      simp at this

/-- C5 (counterexample).  The claim asserts that for any non-empty input the
returned syllables concatenate to the input; on the input `"a b"` the
returned syllables are `["a", "b"]`, whose concatenation `"ab"` differs from
the input (the whitespace run is dropped by the already-spaced branch). -/
theorem segmentation_concat_counterexample :
    pinyinSyllables "a b" = ["a", "b"]
    ∧ String.join (pinyinSyllables "a b") ≠ "a b" := by
  constructor <;> decide

/-- C5 (amended).  For every non-empty input, `splitPinyin` (total by
construction, single-character fallback included) returns a non-empty
sequence of syllables, and when the input contains no whitespace and no
apostrophe the concatenation of the syllables equals the input. -/
theorem splitPinyin_totality (p : String) (hne : p ≠ "") :
    pinyinSyllables p ≠ []
    ∧ ((∀ c ∈ p.data, sepChar c = false) →
        String.join (pinyinSyllables p) = p) := by
  have hdata : p.data ≠ [] := by
    intro h
    exact hne (String.ext h)
  constructor
  · simp only [pinyinSyllables]
    split
    · intro hcontra
      rw [List.map_eq_nil_iff] at hcontra
      exact splitOnSpace_ne_nil _ hcontra
    · intro hcontra
      rw [List.map_eq_nil_iff] at hcontra
      match hd : p.data, hdata with
      | c :: rest, _ =>
          rw [hd] at hcontra
          exact splitLoop_ne_nil c rest hcontra
  · intro hsep
    have h1 : sepNormalize p.data = p.data := sepNormalize_of_no_sep hsep
    have h2 : (p.data).contains ' ' = false := contains_space_of_no_sep hsep
    simp only [pinyinSyllables, h1, h2, Bool.false_eq_true, if_false]
    rw [join_map_mk]
    unfold splitLoop
    rw [splitLoopFuel_flatten p.data.length p.data (le_refl _)]

/-- C5 (witness).  The amended theorem applied to the separator-free
non-empty input `"ab"`. -/
theorem splitPinyin_totality_witness :
    ("ab" : String) ≠ ""
    ∧ (pinyinSyllables "ab" ≠ []
       ∧ ((∀ c ∈ ("ab" : String).data, sepChar c = false) →
           String.join (pinyinSyllables "ab") = "ab")) :=
  ⟨by decide, splitPinyin_totality "ab" (by decide)⟩

/-- C4.  Evaluation of `splitPinyin` on the claim's literal cases.  The
first three agree with the claim; on `"gèrén"` the code produces `"gèr én"`
(the claim and `pinyin.test.ts` expect `"gè rén"`), and on `"nǚér"` it
produces `"nǚé r"` (expected `"nǚ ér"`): the ordered-choice regex loop has
no corrective rule giving a trailing `n`/`r` to the next syllable and no
backtracking. -/
theorem splitPinyin_literal_cases :
    splitPinyin "nǐhǎo" = "nǐ hǎo"
    ∧ splitPinyin "zhōngguó" = "zhōng guó"
    ∧ splitPinyin "értóng" = "ér tóng"
    ∧ splitPinyin "gèrén" = "gèr én"
    ∧ splitPinyin "nǚér" = "nǚé r" := by
  exact ⟨by decide, by decide, by decide, by decide, by decide⟩

/-- C6.  Evaluation of `pinyinMatches` on the claim's pairs: the code
returns `false` on `("ni3hao3", "nǐhǎo")` — the claim and
`pinyin.test.ts` expect `true` — because `normalizePinyin` does not segment
unspaced tone-marked input, so `"nǐhǎo"` normalizes to `"nihao3"` (a single
trailing tone digit), not `"ni3hao3"`.  The second pair returns `false` as
the claim states. -/
theorem pinyinMatches_literal_cases :
    pinyinMatches "ni3hao3" "nǐhǎo" = false
    ∧ normalizePinyin "nǐhǎo" = "nihao3"
    ∧ normalizePinyin "ni3hao3" = "ni3hao3"
    ∧ pinyinMatches "ge4ren3" "gèrén" = false := by
  exact ⟨by decide, by decide, by decide, by decide⟩

/-- C7.  Evaluation of `normalizePinyin`: the result is sensitive to the
spacing of tone-marked input (`"gèrén"` and `"gè rén"` normalize
differently, contradicting the spacing-insensitivity asserted by the claim
and expected by `pinyin.test.ts`), and characters that are neither letters
nor tone digits are not stripped (the comma survives). -/
theorem normalizePinyin_literal_cases :
    normalizePinyin "gèrén" = "geren2"
    ∧ normalizePinyin "gè rén" = "ge4ren2"
    ∧ pinyinMatches "gèrén" "gè rén" = false
    ∧ normalizePinyin "ni3," = "ni3," := by
  exact ⟨by decide, by decide, by decide, by decide⟩

/-! ### Answer-verification lemmas and theorems (claims C8, C9) -/

/-- Adding an element to a set makes it a member. -/
theorem contains_addIfAbsent_self (s : List String) (t : String) :
    (addIfAbsent s t).contains t = true := by
  unfold addIfAbsent
  split
  · assumption
  · simp

/-- Adding a different element does not change membership. -/
theorem contains_addIfAbsent_ne {t k : String} (s : List String) (hne : t ≠ k) :
    (addIfAbsent s k).contains t = s.contains t := by
  unfold addIfAbsent
  split
  · rfl
  · simp [hne]

/-- The step of the fold when the key was already seen. -/
theorem ambStep_of_contains {found : List String} (amb : List String)
    {k : String} (hf : found.contains k = true) :
    ambStep (found, amb) k = (found, addIfAbsent amb k) := by
  unfold ambStep
  rw [if_pos hf]

/-- The step of the fold when the key is seen for the first time. -/
theorem ambStep_of_not_contains {found : List String} (amb : List String)
    {k : String} (hf : found.contains k = false) :
    ambStep (found, amb) k = (addIfAbsent found k, amb) := by
  unfold ambStep
  have hne : ¬(found.contains k = true) := by
    rw [hf]
    exact Bool.false_ne_true
  rw [if_neg hne]

/-- Invariant of the `loadAmbiguousTranslations` fold: a key is in the
ambiguous set exactly when it was already there, or was already seen and
occurs again, or occurs at least twice in the remaining keys. -/
theorem ambFold_spec (ks : List String) (found amb : List String) (t : String) :
    ((ks.foldl ambStep (found, amb)).2.contains t = true) ↔
      (amb.contains t = true
       ∨ (found.contains t = true ∧ 1 ≤ ks.countP (fun k => k == t))
       ∨ 2 ≤ ks.countP (fun k => k == t)) := by
  induction ks generalizing found amb with
  | nil => simp
  | cons k ks ih =>
      rw [List.foldl_cons]
      by_cases hk : k = t
      · subst hk
        have hcc : List.countP (fun x => x == k) (k :: ks)
            = List.countP (fun x => x == k) ks + 1 := by
          simp [List.countP_cons]
        rw [hcc]
        cases hf : found.contains k with
        | true =>
            rw [ambStep_of_contains amb hf, ih]
            apply iff_of_true
            · exact Or.inl (contains_addIfAbsent_self amb k)
            · exact Or.inr (Or.inl ⟨rfl, by omega⟩)
        | false =>
            rw [ambStep_of_not_contains amb hf, ih]
            constructor
            · rintro (h | ⟨_, h2⟩ | h)
              · exact Or.inl h
              · exact Or.inr (Or.inr (by omega))
              · exact Or.inr (Or.inr (by omega))
            · rintro (h | ⟨h1, _⟩ | h)
              · exact Or.inl h
              · cases h1
              · exact Or.inr (Or.inl ⟨contains_addIfAbsent_self found k, by omega⟩)
      · have hcc : List.countP (fun x => x == t) (k :: ks)
            = List.countP (fun x => x == t) ks := by
          simp [List.countP_cons, hk]
        rw [hcc]
        cases hf : found.contains k with
        | true =>
            rw [ambStep_of_contains amb hf, ih,
              contains_addIfAbsent_ne amb (Ne.symm hk)]
        | false =>
            rw [ambStep_of_not_contains amb hf, ih,
              contains_addIfAbsent_ne found (Ne.symm hk)]

/-- Characterization of `isAmbiguousTranslation`: a translation list is
ambiguous exactly when at least two catalog entries normalize to the same
translation string. -/
theorem isAmbiguousTranslation_iff (st : DBState) (ts : List String) :
    isAmbiguousTranslation st ts = true ↔
      2 ≤ st.words.countP
            (fun w => normalizedTranslations w.english
                == normalizedTranslations ts) := by
  unfold isAmbiguousTranslation ambiguousTranslationsSet
  have hfold :
      st.words.foldl (fun acc w => ambStep acc (normalizedTranslations w.english))
          (([] : List String), ([] : List String))
        = (st.words.map (fun w => normalizedTranslations w.english)).foldl ambStep
            (([] : List String), ([] : List String)) := by
    rw [List.foldl_map]
  rw [hfold, ambFold_spec]
  simp only [List.countP_map]
  have hnil : ([] : List String).contains (normalizedTranslations ts) = false := rfl
  rw [hnil]
  simp only [Bool.false_eq_true, false_or, false_and]
  exact Iff.rfl

/-- C8 (counterexample).  The claim asserts that the answer is correct if
and only if it equals the target's written form character for character; the
route trims both sides, so the answer `"爱 "` (trailing space) is judged
correct although it differs from the stored written form `"爱"`. -/
theorem english2hanzi_exact_counterexample :
    (english2hanziFlags stReview wLove "爱 ").correct = true
    ∧ ("爱 " : String) ≠ wLove.hanzi := by
  exact ⟨by decide, by decide⟩

/-- C8 (amended).  In `english2hanzi` mode the answer is judged correct if
and only if it equals the target's written form after trimming surrounding
whitespace from both sides (no case folding); and the synonym flag is set if
and only if the answer is not such a match and at least two catalog entries
share the target's normalized translation list (joined with `|`, lowercased,
trimmed), in which case the response carries `correct = false` together with
`synonym = true`. -/
theorem english2hanzi_flags_spec (st : DBState) (w : DBWord) (answer : String) :
    ((english2hanziFlags st w answer).correct = true
        ↔ trimWs answer.data = trimWs w.hanzi.data)
    ∧ ((english2hanziFlags st w answer).synonym = true
        ↔ (¬ trimWs answer.data = trimWs w.hanzi.data
            ∧ 2 ≤ st.words.countP
                (fun w2 => normalizedTranslations w2.english
                    == normalizedTranslations w.english))) := by
  unfold english2hanziFlags hanziMatches
  constructor
  · simp
  · simp [isAmbiguousTranslation_iff]

/-- C9.  For every practice mode, every database state, every word, every
answer, and every behaviour of the synonym-table lookup and of
`lastNeutralToneMismatch`, the answer route never reports a response with
both `correct = true` and `synonym = true`: a near-miss is never scored as
correct. -/
theorem answer_never_correct_and_synonym (st : DBState)
    (isPinyinSynonymO lastNeutralO : String → String → Bool)
    (mode : PracticeMode) (w : DBWord) (answer : String) :
    ((answerFlags st isPinyinSynonymO lastNeutralO mode w answer).correct
      && (answerFlags st isPinyinSynonymO lastNeutralO mode w answer).synonym)
      = false := by
  cases mode with
  | hanzi2pinyin =>
      simp only [answerFlags]
      cases hc : pinyinMatches answer w.pinyin <;> simp [hc]
  | hanzi2english => simp [answerFlags]
  | english2hanzi =>
      simp only [answerFlags, english2hanziFlags]
      cases hc : hanziMatches answer w.hanzi <;> simp [hc]
  | english2pinyin =>
      simp only [answerFlags]
      cases hc : (normalizePinyin answer == normalizePinyin w.pinyin) <;> simp [hc]

/-! ### Selection-query lemmas and theorems (claims C3, C2) -/

/-- Membership in the words-progress join determines the row's shape. -/
theorem joinRows_mem {st : DBState} {mode : PracticeMode}
    {wp : DBWord × DBProgress} (h : wp ∈ joinRows st mode) :
    wp.1 ∈ st.words ∧ wp.2 ∈ st.progress
      ∧ wp.2.hanzi = wp.1.hanzi ∧ wp.2.mode = mode := by
  unfold joinRows at h
  rw [List.mem_flatMap] at h
  obtain ⟨w, hw, hwp⟩ := h
  rw [List.mem_map] at hwp
  obtain ⟨p, hp, hpair⟩ := hwp
  rw [List.mem_filter] at hp
  obtain ⟨hp1, hp2⟩ := hp
  rw [Bool.and_eq_true, beq_iff_eq, beq_iff_eq] at hp2
  subst hpair
  exact ⟨hw, hp1, hp2.1, hp2.2⟩

/-- Rows surviving the review filter come from the join. -/
theorem reviewRows_subset {st : DBState} {mode : PracticeMode}
    {categories : List String} {characterMode : Bool} {dueOnly : Bool}
    {now : ℕ} {wp : DBWord × DBProgress}
    (h : wp ∈ reviewRows st mode categories characterMode dueOnly now) :
    wp ∈ joinRows st mode := by
  unfold reviewRows at h
  exact (List.mem_filter.mp h).1

/-- C3 (counterexample).  The claim asserts that the `review` and `random`
strategies return only items whose record has `nextEligible ≤ now`.  In the
state `stReview` the single item's record has `nextEligible = 5`, yet at
`now = 0` both strategies return it: `getWordsForReview` passes
`dueOnly = false` to `queryReviewWords`, so no eligibility filter is
applied. -/
theorem review_due_filter_counterexample :
    getWordsForReview stReview .hanzi2pinyin 10 [] false false 0 id = [wLove]
    ∧ getWordsForReview stReview .hanzi2pinyin 10 [] false true 0 id = [wLove]
    ∧ (∀ p ∈ stReview.progress, ¬(p.nextEligible ≤ 0)) := by
  exact ⟨by decide, by decide, by decide⟩

/-- C3 (amended).  For every mode, count, filter set and time, the `review`
strategy returns words that all have a progress record in the mode —
regardless of `nextEligible` — ordered by the record's `nextEligible`
ascending; the `random` strategy applies the same record-existence
condition (again with no `nextEligible ≤ now` filter) and returns the words
in the order of an arbitrary permutation of the rows. -/
theorem review_queries_amended (st : DBState) (mode : PracticeMode)
    (categories : List String) (characterMode : Bool) (count : ℕ) (now : ℕ)
    (shuffle : List (DBWord × DBProgress) → List (DBWord × DBProgress))
    (hshuffle : ∀ l, (shuffle l).Perm l) :
    (∃ rows : List (DBWord × DBProgress),
        getWordsForReview st mode count categories characterMode false now shuffle
          = rows.map Prod.fst
        ∧ rows.Pairwise rowLE
        ∧ ∀ wp ∈ rows, wp.1 ∈ st.words ∧ wp.2 ∈ st.progress
            ∧ wp.2.hanzi = wp.1.hanzi ∧ wp.2.mode = mode)
    ∧ (∀ w ∈ getWordsForReview st mode count categories characterMode true now shuffle,
        ∃ p ∈ st.progress, p.hanzi = w.hanzi ∧ p.mode = mode) := by
  constructor
  · refine ⟨(List.insertionSort rowLE
        (reviewRows st mode categories characterMode false now)).take count,
      ?_, ?_, ?_⟩
    · unfold getWordsForReview queryReviewWords
      simp only [if_neg Bool.false_ne_true, List.map_take]
    · exact (List.sorted_insertionSort rowLE _).sublist (List.take_sublist _ _)
    · intro wp hwp
      have h1 : wp ∈ List.insertionSort rowLE
          (reviewRows st mode categories characterMode false now) :=
        (List.take_sublist _ _).subset hwp
      have h2 : wp ∈ reviewRows st mode categories characterMode false now :=
        (List.perm_insertionSort rowLE _).mem_iff.mp h1
      exact joinRows_mem (reviewRows_subset h2)
  · intro w hw
    unfold getWordsForReview queryReviewWords at hw
    simp only [if_pos rfl] at hw
    have h1 : w ∈ (shuffle
        (reviewRows st mode categories characterMode false now)).map Prod.fst :=
      (List.take_sublist _ _).subset hw
    rw [List.mem_map] at h1
    obtain ⟨wp, hwp, hfst⟩ := h1
    have h2 : wp ∈ reviewRows st mode categories characterMode false now :=
      (hshuffle _).mem_iff.mp hwp
    obtain ⟨_, hp, hh, hm⟩ := joinRows_mem (reviewRows_subset h2)
    exact ⟨wp.2, hp, by rw [hfst] at hh; exact hh, hm⟩

/-- C3 (witness).  The amended theorem applied at the state `stReview` with
the identity permutation. -/
theorem review_queries_amended_witness :
    (∀ l : List (DBWord × DBProgress), (id l).Perm l)
    ∧ ((∃ rows : List (DBWord × DBProgress),
        getWordsForReview stReview .hanzi2pinyin 1 [] false false 0 id
          = rows.map Prod.fst
        ∧ rows.Pairwise rowLE
        ∧ ∀ wp ∈ rows, wp.1 ∈ stReview.words ∧ wp.2 ∈ stReview.progress
            ∧ wp.2.hanzi = wp.1.hanzi ∧ wp.2.mode = PracticeMode.hanzi2pinyin)
    ∧ (∀ w ∈ getWordsForReview stReview .hanzi2pinyin 1 [] false true 0 id,
        ∃ p ∈ stReview.progress,
          p.hanzi = w.hanzi ∧ p.mode = PracticeMode.hanzi2pinyin)) :=
  ⟨fun l => List.Perm.refl l,
    review_queries_amended stReview .hanzi2pinyin [] false 1 0 id
      (fun l => List.Perm.refl l)⟩

/-- A filter retaining at most one possible element has length at most 1. -/
theorem length_filter_le_one_of_unique {α : Type} (l : List α) (hnd : l.Nodup)
    (P : α → Bool)
    (h : ∀ a ∈ l, ∀ b ∈ l, P a = true → P b = true → a = b) :
    (l.filter P).length ≤ 1 := by
  by_contra hcon
  push_neg at hcon
  rcases hl2 : l.filter P with _ | ⟨a, _ | ⟨b, u⟩⟩
  · rw [hl2] at hcon; simp at hcon
  · rw [hl2] at hcon; simp at hcon
  · have hnl : (l.filter P).Nodup := hnd.filter _
    rw [hl2] at hnl
    have hane : a ≠ b := by
      intro he
      rw [List.nodup_cons] at hnl
      exact hnl.1 (he ▸ List.mem_cons_self b u)
    have ha : a ∈ l.filter P := by
      rw [hl2]; exact List.mem_cons_self a _
    have hb : b ∈ l.filter P := by
      rw [hl2]; exact List.mem_cons_of_mem a (List.mem_cons_self b u)
    have ha' := List.mem_filter.mp ha
    have hb' := List.mem_filter.mp hb
    exact hane (h a ha'.1 b hb'.1 ha'.2 hb'.2)

/-- The first component of a `find?` over a unique-key list: any member
satisfying the predicate is the one found. -/
theorem find?_unique {α : Type} (P : α → Bool) :
    ∀ (l : List α), (∀ a ∈ l, ∀ b ∈ l, P a = true → P b = true → a = b) →
      ∀ p ∈ l, P p = true → l.find? P = some p := by
  intro l
  induction l with
  | nil => intro _ p hp; cases hp
  | cons a t ih =>
      intro h p hp hPp
      cases hPa : P a with
      | true =>
          rw [List.find?_cons_of_pos _ hPa]
          rw [h a (List.mem_cons_self a t) p hp hPa hPp]
      | false =>
          rw [List.find?_cons_of_neg _ (by simp [hPa])]
          have hpt : p ∈ t := by
            rcases List.mem_cons.mp hp with he | ht
            · subst he; rw [hPp] at hPa; cases hPa
            · exact ht
          exact ih (fun x hx y hy =>
            h x (List.mem_cons_of_mem _ hx) y (List.mem_cons_of_mem _ hy)) p hpt hPp

/-- The per-word contribution to the due query: with unique progress
records, each word contributes itself exactly once when it has a due record
passing the filters, and nothing otherwise. -/
theorem perword_map_fst (ps : List DBProgress) (mode : PracticeMode) (now : ℕ)
    (hnd : ps.Nodup)
    (huniq : ∀ p ∈ ps, ∀ q ∈ ps, p.hanzi = q.hanzi → p.mode = q.mode → p = q)
    (hcm : ∀ p ∈ ps, p.characterModeOnly = false)
    (wfilt : DBWord → Bool) (w : DBWord) :
    (((ps.filter (fun p => p.hanzi == w.hanzi && p.mode == mode)).map
        (fun p => (w, p))).filter
      (fun wp => (!true || decide (wp.2.nextEligible ≤ now))
        && wfilt wp.1 && progressFilter false wp.2)).map Prod.fst
    = if wfilt w && ps.any (fun p =>
          p.hanzi == w.hanzi && p.mode == mode && decide (p.nextEligible ≤ now))
      then [w] else [] := by
  rw [List.filter_map, List.map_map]
  cases hwf : wfilt w with
  | false =>
      have hnil : (ps.filter (fun p => p.hanzi == w.hanzi && p.mode == mode)).filter
          ((fun wp => (!true || decide (wp.2.nextEligible ≤ now))
            && wfilt wp.1 && progressFilter false wp.2) ∘ (fun p => (w, p))) = [] := by
        rw [List.filter_eq_nil_iff]
        intro p _
        simp [hwf]
      rw [hnil]
      simp [hwf]
  | true =>
      have hcongr : (ps.filter (fun p => p.hanzi == w.hanzi && p.mode == mode)).filter
          ((fun wp => (!true || decide (wp.2.nextEligible ≤ now))
            && wfilt wp.1 && progressFilter false wp.2) ∘ (fun p => (w, p)))
          = (ps.filter (fun p => p.hanzi == w.hanzi && p.mode == mode)).filter
              (fun p => decide (p.nextEligible ≤ now)) := by
        apply List.filter_congr
        intro p hp
        have hpc := hcm p (List.mem_filter.mp hp).1
        simp [hwf, hpc, progressFilter]
      rw [hcongr, List.filter_filter]
      have hps : ps.filter (fun a =>
          decide (a.nextEligible ≤ now) && (a.hanzi == w.hanzi && a.mode == mode))
          = ps.filter (fun p =>
              p.hanzi == w.hanzi && p.mode == mode
                && decide (p.nextEligible ≤ now)) := by
        apply List.filter_congr
        intro p _
        rw [Bool.and_comm]
      rw [hps]
      have hlen : (ps.filter (fun p =>
          p.hanzi == w.hanzi && p.mode == mode
            && decide (p.nextEligible ≤ now))).length ≤ 1 := by
        apply length_filter_le_one_of_unique ps hnd
        intro a ha b hb hPa hPb
        rw [Bool.and_eq_true, Bool.and_eq_true, beq_iff_eq, beq_iff_eq] at hPa hPb
        exact huniq a ha b hb (hPa.1.1.trans hPb.1.1.symm) (hPa.1.2.trans hPb.1.2.symm)
      rcases hfl : ps.filter (fun p =>
          p.hanzi == w.hanzi && p.mode == mode
            && decide (p.nextEligible ≤ now)) with _ | ⟨a, t⟩
      · have hany : ps.any (fun p =>
            p.hanzi == w.hanzi && p.mode == mode
              && decide (p.nextEligible ≤ now)) = false := by
          cases hx : ps.any (fun p =>
              p.hanzi == w.hanzi && p.mode == mode
                && decide (p.nextEligible ≤ now)) with
          | false => rfl
          | true =>
              obtain ⟨p, hp, hpred⟩ := List.any_eq_true.mp hx
              exact absurd hpred (List.filter_eq_nil_iff.mp hfl p hp)
        rw [hfl, hany]
        simp
      · have ht : t = [] := by
          rw [hfl] at hlen
          simp only [List.length_cons] at hlen
          exact List.eq_nil_of_length_eq_zero (by omega)
        subst ht
        have hamem : a ∈ ps.filter (fun p =>
            p.hanzi == w.hanzi && p.mode == mode
              && decide (p.nextEligible ≤ now)) := by
          rw [hfl]; exact List.mem_cons_self a []
        have ha' := List.mem_filter.mp hamem
        have hany : ps.any (fun p =>
            p.hanzi == w.hanzi && p.mode == mode
              && decide (p.nextEligible ≤ now)) = true := by
          rw [List.any_eq_true]
          exact ⟨a, ha'.1, ha'.2⟩
        rw [hfl, hany]
        simp [hwf]

/-- The due query's word list over an explicit word list: word filter plus
existence of a due record. -/
theorem rows_map_fst (ps : List DBProgress) (mode : PracticeMode) (now : ℕ)
    (hnd : ps.Nodup)
    (huniq : ∀ p ∈ ps, ∀ q ∈ ps, p.hanzi = q.hanzi → p.mode = q.mode → p = q)
    (hcm : ∀ p ∈ ps, p.characterModeOnly = false)
    (wfilt : DBWord → Bool) :
    ∀ ws : List DBWord,
    ((ws.flatMap (fun w =>
        (ps.filter (fun p => p.hanzi == w.hanzi && p.mode == mode)).map
          (fun p => (w, p)))).filter
      (fun wp => (!true || decide (wp.2.nextEligible ≤ now))
        && wfilt wp.1 && progressFilter false wp.2)).map Prod.fst
    = ws.filter (fun w => wfilt w && ps.any (fun p =>
        p.hanzi == w.hanzi && p.mode == mode
          && decide (p.nextEligible ≤ now))) := by
  intro ws
  induction ws with
  | nil => rfl
  | cons w ws ih =>
      rw [List.flatMap_cons, List.filter_append, List.map_append, ih,
        perword_map_fst ps mode now hnd huniq hcm wfilt w]
      cases hw : (wfilt w && ps.any (fun p =>
          p.hanzi == w.hanzi && p.mode == mode
            && decide (p.nextEligible ≤ now))) with
      | true => simp [List.filter_cons, hw]
      | false => simp [List.filter_cons, hw]

/-- The words of the due query are exactly the claim's due words. -/
theorem reviewRows_fst (st : DBState) (mode : PracticeMode) (now : ℕ)
    (hnd : st.progress.Nodup)
    (huniq : ∀ p ∈ st.progress, ∀ q ∈ st.progress,
        p.hanzi = q.hanzi → p.mode = q.mode → p = q)
    (hcm : ∀ p ∈ st.progress, p.characterModeOnly = false) :
    (reviewRows st mode [] false true now).map Prod.fst = dueWords st mode now := by
  unfold reviewRows joinRows dueWords
  exact rows_map_fst st.progress mode now hnd huniq hcm
    (wordFilter st mode [] false) st.words

/-- Outside character mode, a word is "new" for the LEFT JOIN exactly when
it has no progress record for the mode (given that no record carries the
`character_mode_only` flag). -/
theorem isNewFor_eq_not_any (st : DBState) (mode : PracticeMode)
    (hcm : ∀ p ∈ st.progress, p.characterModeOnly = false) (w : DBWord) :
    isNewFor st mode false w
      = !(st.progress.any (fun p => p.hanzi == w.hanzi && p.mode == mode)) := by
  unfold isNewFor
  cases hf : st.progress.find? (fun p => p.hanzi == w.hanzi && p.mode == mode) with
  | none =>
      have hany : st.progress.any
          (fun p => p.hanzi == w.hanzi && p.mode == mode) = false := by
        cases hx : st.progress.any
            (fun p => p.hanzi == w.hanzi && p.mode == mode) with
        | false => rfl
        | true =>
            obtain ⟨p, hp, hpred⟩ := List.any_eq_true.mp hx
            exact absurd hpred (List.find?_eq_none.mp hf p hp)
      rw [hany]
      rfl
  | some p =>
      have hp := List.mem_of_find?_eq_some hf
      have hcp := hcm p hp
      have hpred := List.find?_some hf
      have hany : st.progress.any
          (fun p => p.hanzi == w.hanzi && p.mode == mode) = true :=
        List.any_eq_true.mpr ⟨p, hp, hpred⟩
      rw [hany]
      simp [hcp]

/-- The new-word query's filter coincides with the claim's new words. -/
theorem newFilter_eq (st : DBState) (mode : PracticeMode)
    (hcm : ∀ p ∈ st.progress, p.characterModeOnly = false) :
    st.words.filter (fun w =>
        isNewFor st mode false w && wordFilter st mode [] false w)
      = newEligibleWords st mode := by
  unfold newEligibleWords
  apply List.filter_congr
  intro w _
  rw [isNewFor_eq_not_any st mode hcm w, Bool.and_comm]

/-- The `nextEligible` key of a word equals its unique record's value. -/
theorem neKey_eq_of_record (st : DBState) (mode : PracticeMode)
    (huniq : ∀ p ∈ st.progress, ∀ q ∈ st.progress,
        p.hanzi = q.hanzi → p.mode = q.mode → p = q)
    {w : DBWord} {p : DBProgress} (hp : p ∈ st.progress)
    (hh : p.hanzi = w.hanzi) (hm : p.mode = mode) :
    neKey st mode w = p.nextEligible := by
  unfold neKey
  have hfind := find?_unique (fun q => q.hanzi == w.hanzi && q.mode == mode)
    st.progress
    (fun a ha b hb hPa hPb => by
      rw [Bool.and_eq_true, beq_iff_eq, beq_iff_eq] at hPa hPb
      exact huniq a ha b hb (hPa.1.trans hPb.1.symm) (hPa.2.trans hPb.2.symm))
    p hp
    (by rw [Bool.and_eq_true, beq_iff_eq, beq_iff_eq]; exact ⟨hh, hm⟩)
  rw [hfind]
  rfl

/-- C2.  For the default mixed selection (no category filter, word mode, no
character-mode-only records) with N eligible due words and M eligible new
words, `N < count ≤ N + M`, unique hanzi, and at most one progress record
per (hanzi, mode): `getWordsForPractice` returns exactly `count` words; the
first N are exactly the due words (those whose record for the mode has
`nextEligible ≤ now`), ordered by `nextEligible` ascending; the remaining
`count - N` all have no progress record for the mode and are ordered by
frequency rank ascending; and no word appears twice. -/
theorem mixed_selection_spec (st : DBState) (mode : PracticeMode)
    (count : ℕ) (now : ℕ)
    (hW : (st.words.map (fun w => w.hanzi)).Nodup)
    (hPnd : st.progress.Nodup)
    (hPu : ∀ p ∈ st.progress, ∀ q ∈ st.progress,
        p.hanzi = q.hanzi → p.mode = q.mode → p = q)
    (hCM : ∀ p ∈ st.progress, p.characterModeOnly = false)
    (hN : (dueWords st mode now).length < count)
    (hM : count ≤ (dueWords st mode now).length
        + (newEligibleWords st mode).length) :
    (getWordsForPractice st mode [] false count now).length = count
    ∧ ((getWordsForPractice st mode [] false count now).take
          (dueWords st mode now).length).Perm (dueWords st mode now)
    ∧ ((getWordsForPractice st mode [] false count now).take
          (dueWords st mode now).length).Pairwise
        (fun a b => neKey st mode a ≤ neKey st mode b)
    ∧ ((getWordsForPractice st mode [] false count now).drop
          (dueWords st mode now).length).length
        = count - (dueWords st mode now).length
    ∧ (∀ w ∈ (getWordsForPractice st mode [] false count now).drop
          (dueWords st mode now).length, w ∈ newEligibleWords st mode)
    ∧ ((getWordsForPractice st mode [] false count now).drop
          (dueWords st mode now).length).Pairwise
        (fun a b => a.rank.getD 0 ≤ b.rank.getD 0)
    ∧ (getWordsForPractice st mode [] false count now).Nodup := by
  have hfst : (reviewRows st mode [] false true now).map Prod.fst
      = dueWords st mode now := reviewRows_fst st mode now hPnd hPu hCM
  have hduePerm : ((List.insertionSort rowLE
      (reviewRows st mode [] false true now)).map Prod.fst).Perm
        (dueWords st mode now) := by
    rw [← hfst]
    exact (List.perm_insertionSort rowLE _).map Prod.fst
  have hduelen : ((List.insertionSort rowLE
      (reviewRows st mode [] false true now)).map Prod.fst).length
        = (dueWords st mode now).length := hduePerm.length_eq
  have hquery : queryReviewWords st mode [] false count true false now id
      = (List.insertionSort rowLE
          (reviewRows st mode [] false true now)).map Prod.fst := by
    unfold queryReviewWords
    simp only [if_neg Bool.false_ne_true]
    rw [List.take_of_length_le]
    rw [hduelen]
    omega
  have hnlE : st.words.filter (fun w =>
      isNewFor st mode false w && wordFilter st mode [] false w)
        = newEligibleWords st mode := newFilter_eq st mode hCM
  have hnsPerm : (List.insertionSort (newLE false)
      (st.words.filter (fun w =>
        isNewFor st mode false w && wordFilter st mode [] false w))).Perm
          (newEligibleWords st mode) := by
    have h := List.perm_insertionSort (newLE false)
      (st.words.filter (fun w =>
        isNewFor st mode false w && wordFilter st mode [] false w))
    have h2 : (st.words.filter (fun w =>
        isNewFor st mode false w && wordFilter st mode [] false w)).Perm
          (newEligibleWords st mode) := by
      rw [hnlE]
    exact h.trans h2
  have hmain : getWordsForPractice st mode [] false count now
      = (List.insertionSort rowLE
          (reviewRows st mode [] false true now)).map Prod.fst
        ++ (List.insertionSort (newLE false)
            (st.words.filter (fun w =>
              isNewFor st mode false w && wordFilter st mode [] false w))).take
          (count - (dueWords st mode now).length) := by
    unfold getWordsForPractice
    rw [hquery]
    rw [if_pos (by rw [hduelen]; omega)]
    unfold queryNewWords
    rw [hduelen]
  have hnplen : ((List.insertionSort (newLE false)
      (st.words.filter (fun w =>
        isNewFor st mode false w && wordFilter st mode [] false w))).take
          (count - (dueWords st mode now).length)).length
        = count - (dueWords st mode now).length := by
    rw [List.length_take, hnsPerm.length_eq]
    exact min_eq_left (by omega)
  have hkeyPW : ((List.insertionSort rowLE
      (reviewRows st mode [] false true now)).map Prod.fst).Pairwise
        (fun a b => neKey st mode a ≤ neKey st mode b) := by
    have hmem : ∀ wp ∈ List.insertionSort rowLE
        (reviewRows st mode [] false true now),
          neKey st mode wp.1 = wp.2.nextEligible := by
      intro wp hwp
      have h2 : wp ∈ reviewRows st mode [] false true now :=
        (List.perm_insertionSort rowLE _).mem_iff.mp hwp
      obtain ⟨_, hp, hh, hm⟩ := joinRows_mem (reviewRows_subset h2)
      exact neKey_eq_of_record st mode hPu hp hh hm
    have hPW2 : (List.insertionSort rowLE
        (reviewRows st mode [] false true now)).Pairwise
          (fun a b => neKey st mode a.1 ≤ neKey st mode b.1) := by
      refine List.Pairwise.imp_of_mem ?_ (List.sorted_insertionSort rowLE _)
      intro a b ha hb hab
      rw [hmem a ha, hmem b hb]
      exact hab
    exact hPW2.map Prod.fst (fun a b h => h)
  set dp := (List.insertionSort rowLE
      (reviewRows st mode [] false true now)).map Prod.fst with hdp
  set np := (List.insertionSort (newLE false)
      (st.words.filter (fun w =>
        isNewFor st mode false w && wordFilter st mode [] false w))).take
          (count - (dueWords st mode now).length) with hnp
  have htake : (dp ++ np).take (dueWords st mode now).length = dp := by
    rw [← hduelen, List.take_left]
  have hdropeq : (dp ++ np).drop (dueWords st mode now).length = np := by
    rw [← hduelen, List.drop_left]
  have hndW : st.words.Nodup := List.Nodup.of_map _ hW
  have hDnd : (dueWords st mode now).Nodup := hndW.filter _
  have hNEnd : (newEligibleWords st mode).Nodup := hndW.filter _
  have hdueNd : dp.Nodup := hduePerm.symm.nodup hDnd
  have hnsNd : (List.insertionSort (newLE false)
      (st.words.filter (fun w =>
        isNewFor st mode false w && wordFilter st mode [] false w))).Nodup :=
    hnsPerm.symm.nodup hNEnd
  have hnpNd : np.Nodup := by
    rw [hnp]
    exact List.Nodup.sublist (List.take_sublist _ _) hnsNd
  refine ⟨?_, ?_, ?_, ?_, ?_, ?_, ?_⟩
  · rw [hmain, List.length_append, hduelen, hnplen]
    omega
  · rw [hmain, htake]
    exact hduePerm
  · rw [hmain, htake]
    exact hkeyPW
  · rw [hmain, hdropeq]
    exact hnplen
  · rw [hmain, hdropeq]
    intro w hw
    have h1 : w ∈ List.insertionSort (newLE false)
        (st.words.filter (fun w =>
          isNewFor st mode false w && wordFilter st mode [] false w)) :=
      (List.take_sublist _ _).subset hw
    exact hnsPerm.mem_iff.mp h1
  · rw [hmain, hdropeq, hnp]
    have h2 := (List.sorted_insertionSort (newLE false)
      (st.words.filter (fun w =>
        isNewFor st mode false w && wordFilter st mode [] false w))).sublist
      (List.take_sublist (count - (dueWords st mode now).length) _)
    exact h2.imp (fun {a b} h => h)
  · rw [hmain, List.nodup_append]
    refine ⟨hdueNd, hnpNd, ?_⟩
    intro w hwd hwn
    have hwD : w ∈ dueWords st mode now := hduePerm.mem_iff.mp hwd
    have h1 : w ∈ List.insertionSort (newLE false)
        (st.words.filter (fun w =>
          isNewFor st mode false w && wordFilter st mode [] false w)) := by
      rw [hnp] at hwn
      exact (List.take_sublist _ _).subset hwn
    have hwN : w ∈ newEligibleWords st mode := hnsPerm.mem_iff.mp h1
    have hd := (List.mem_filter.mp hwD).2
    have hn := (List.mem_filter.mp hwN).2
    rw [Bool.and_eq_true] at hd hn
    obtain ⟨p, hp, hpred⟩ := List.any_eq_true.mp hd.2
    rw [Bool.and_eq_true] at hpred
    have hkey : st.progress.any
        (fun p => p.hanzi == w.hanzi && p.mode == mode) = true :=
      List.any_eq_true.mpr ⟨p, hp, hpred.1⟩
    rw [hkey] at hn
    simp at hn

/-- C2 (witness).  The mixed-selection theorem applied to the state
`stMixed` (one due word, two new words) with `count = 2` at `now = 10`. -/
theorem mixed_selection_spec_witness :
    ((stMixed.words.map (fun w => w.hanzi)).Nodup
      ∧ stMixed.progress.Nodup
      ∧ (∀ p ∈ stMixed.progress, ∀ q ∈ stMixed.progress,
          p.hanzi = q.hanzi → p.mode = q.mode → p = q)
      ∧ (∀ p ∈ stMixed.progress, p.characterModeOnly = false)
      ∧ (dueWords stMixed .hanzi2pinyin 10).length < 2
      ∧ 2 ≤ (dueWords stMixed .hanzi2pinyin 10).length
          + (newEligibleWords stMixed .hanzi2pinyin).length)
    ∧ ((getWordsForPractice stMixed .hanzi2pinyin [] false 2 10).length = 2
    ∧ ((getWordsForPractice stMixed .hanzi2pinyin [] false 2 10).take
          (dueWords stMixed .hanzi2pinyin 10).length).Perm
        (dueWords stMixed .hanzi2pinyin 10)
    ∧ ((getWordsForPractice stMixed .hanzi2pinyin [] false 2 10).take
          (dueWords stMixed .hanzi2pinyin 10).length).Pairwise
        (fun a b => neKey stMixed .hanzi2pinyin a ≤ neKey stMixed .hanzi2pinyin b)
    ∧ ((getWordsForPractice stMixed .hanzi2pinyin [] false 2 10).drop
          (dueWords stMixed .hanzi2pinyin 10).length).length
        = 2 - (dueWords stMixed .hanzi2pinyin 10).length
    ∧ (∀ w ∈ (getWordsForPractice stMixed .hanzi2pinyin [] false 2 10).drop
          (dueWords stMixed .hanzi2pinyin 10).length,
        w ∈ newEligibleWords stMixed .hanzi2pinyin)
    ∧ ((getWordsForPractice stMixed .hanzi2pinyin [] false 2 10).drop
          (dueWords stMixed .hanzi2pinyin 10).length).Pairwise
        (fun a b => a.rank.getD 0 ≤ b.rank.getD 0)
    ∧ (getWordsForPractice stMixed .hanzi2pinyin [] false 2 10).Nodup) :=
  ⟨⟨by decide, by decide, by decide, by decide, by decide, by decide⟩,
    mixed_selection_spec stMixed .hanzi2pinyin 2 10 (by decide) (by decide)
      (by decide) (by decide) (by decide) (by decide)⟩

end Memchin
